import Mathlib

/-!
The notsoproxy program: statistics registry, backend pool and relay loop.

A shallow embedding of `main.go`.  Go's `int64` is modelled by `Int` with an
explicit two's-complement wrap, the `map[string]int64` by an association list,
the buffered channel `backendQueue` by a bounded FIFO buffer, and the goroutines
of `handleConnection` / `queueBackend` by an interleaving step function.
-/

namespace Notsoproxy

/-! ## Signed 64-bit integers -/

/-- Smallest `int64`. -/
def minInt64 : Int := -9223372036854775808

/-- Largest `int64`. -/
def maxInt64 : Int := 9223372036854775807

/-- Two's-complement reduction of an integer to the `int64` range. -/
def wrapInt64 (x : Int) : Int :=
  (x + 9223372036854775808) % 18446744073709551616 - 9223372036854775808

/-- Go's `+` on `int64`: the sum wraps around on overflow. -/
def addInt64 (a b : Int) : Int := wrapInt64 (a + b)

/-- Membership in the `int64` range. -/
def IsInt64 (x : Int) : Prop := minInt64 ≤ x ∧ x ≤ maxInt64

instance (x : Int) : Decidable (IsInt64 x) := by
  unfold IsInt64
  infer_instance

/-! ## Go maps with string keys -/

/-- A Go `map[string]β`, kept as an association list without duplicate keys. -/
abbrev GoMap (β : Type) := List (String × β)

/-- Lookup `m[k]` in comma-ok form: `none` when the key is absent. -/
def mapFind {β : Type} : GoMap β → String → Option β
  | [], _ => none
  | (k', v) :: rest, k => if k' = k then some v else mapFind rest k

/-- Assignment `m[k] = v`: replaces the entry of `k`, or adds one. -/
def mapAssign {β : Type} : GoMap β → String → β → GoMap β
  | [], k, v => [(k, v)]
  | (k', v') :: rest, k, v =>
    if k' = k then (k, v) :: rest else (k', v') :: mapAssign rest k v

/-- Index expression `m[k]` on a `map[string]int64`: zero when absent. -/
def mapIndex (m : GoMap Int) (k : String) : Int := (mapFind m k).getD 0

/-! ## Requests, responses and the statistics registry -/

/-- The part of `*http.Request` the proxy looks at: `req.URL.Path`. -/
structure Request where
  path : String
deriving DecidableEq, Repr

/-- The part of `*http.Response` the proxy looks at or changes. -/
structure Response where
  /-- Field `resp.ContentLength`; `-1` stands for an unknown length. -/
  contentLength : Int
  /-- Field `resp.Header`. -/
  header : GoMap String
  /-- Field `resp.Close`. -/
  close : Bool
  /-- Field `resp.StatusCode`. -/
  statusCode : Nat
deriving DecidableEq, Repr

/-- The global `requestBytes` as created by `init`. -/
def requestBytesInit : GoMap Int := []

/-- Function `updateStats` (main.go 167-176), run under `requestLock`: returns
the value of `bytes` and the new `requestBytes`. -/
def updateStats (requestBytes : GoMap Int) (req : Request) (resp : Response) :
    Int × GoMap Int :=
  let bytes : Int :=
    if resp.contentLength ≠ -1 then
      addInt64 (mapIndex requestBytes req.path) resp.contentLength
    else 0
  (bytes, mapAssign requestBytes req.path bytes)

/-- A response carrying only a content length. -/
def respOfLength (n : Int) : Response :=
  { contentLength := n, header := [], close := false, statusCode := 200 }

/-- A sequence of `updateStats` calls, each given as path and content length,
run in order; yields the returned values and the final registry. -/
def runStats : GoMap Int → List (String × Int) → List Int × GoMap Int
  | m, [] => ([], m)
  | m, (p, n) :: rest =>
    let r := updateStats m ⟨p⟩ (respOfLength n)
    let rs := runStats r.2 rest
    (r.1 :: rs.1, rs.2)

/-- Sum of the content lengths that a call sequence carries for path `p`. -/
def lengthsFor (p : String) : List (String × Int) → Int
  | [] => 0
  | (q, n) :: rest => (if q = p then n else 0) + lengthsFor p rest

/-- Every call is either of unknown length (`-1`) or adds a known length
without leaving the `int64` range, checked along the run from `m`. -/
def noOverflow : GoMap Int → List (String × Int) → Bool
  | _, [] => true
  | m, (p, n) :: rest =>
    (decide (n = -1) || (decide (0 ≤ n) && decide (mapIndex m p + n ≤ maxInt64))) &&
      noOverflow (updateStats m ⟨p⟩ (respOfLength n)).2 rest

/-! ## The backend pool -/

/-- A `*Backend`: the wrapped `net.Conn`, told apart by the number of the
connection.  The `Reader` and `Writer` fields buffer that same connection. -/
structure Backend where
  conn : Nat
deriving DecidableEq, Repr

/-- Capacity of the channel made by `make(chan *Backend, 10)`. -/
def backendQueueCap : Nat := 10

/-- The state the pool functions act on. -/
structure Pool where
  /-- Elements buffered in the channel `backendQueue`, oldest first. -/
  backendQueue : List Backend
  /-- Backends on which `Close` has been called. -/
  closed : List Backend
  /-- Number of `net.Dial` calls made so far. -/
  dials : Nat
deriving DecidableEq, Repr

/-- The pool at program start: `backendQueue` empty, nothing closed or dialled. -/
def poolInit : Pool := { backendQueue := [], closed := [], dials := 0 }

/-- The send `backendQueue <- be`, when it can proceed: the buffer has room. -/
def trySend (p : Pool) (be : Backend) : Option Pool :=
  if p.backendQueue.length < backendQueueCap then
    some { p with backendQueue := p.backendQueue ++ [be] }
  else none

/-- The receive `<-backendQueue`, when it can proceed: the buffer is not empty. -/
def tryRecv (p : Pool) : Option (Backend × Pool) :=
  match p.backendQueue with
  | [] => none
  | be :: rest => some (be, { p with backendQueue := rest })

/-- Function `getBackend` (main.go 139-154).  `p` is the pool when the `select`
is entered and `later` lists the pool as other goroutines leave it at the
following instants of the wait, up to the firing of the 100 ms timer.  The
receive case is taken at the first instant at which it can proceed; when the
timer fires first `net.Dial` is called, `dialErr` being the error it returns
(`none` for `nil`), and a successful dial makes a new connection, numbered by
the count of dials so far.  The result is the Go pair `(*Backend, error)`
together with the pool left behind. -/
def getBackend (dialErr : Option String) :
    Pool → List Pool → (Option Backend × Option String) × Pool
  | p, [] =>
    match tryRecv p with
    | some (be, p') => ((some be, none), p')
    | none =>
      match dialErr with
      | some err => ((none, some err), { p with dials := p.dials + 1 })
      | none => ((some { conn := p.dials }, none), { p with dials := p.dials + 1 })
  | p, next :: rest =>
    match tryRecv p with
    | some (be, p') => ((some be, none), p')
    | none => getBackend dialErr next rest

/-- Function `queueBackend` (main.go 158-165).  `p` is the pool when the
`select` is entered and `later` lists the pool at the following instants of the
wait, up to the firing of the one-second timer.  The send case is taken at the
first instant at which it can proceed; when the timer fires first, `be.Close()`
runs. -/
def queueBackend (be : Backend) : Pool → List Pool → Pool
  | p, [] =>
    match trySend p be with
    | some p' => p'
    | none => { p with closed := be :: p.closed }
  | p, next :: rest =>
    match trySend p be with
    | some p' => p'
    | none => queueBackend be next rest

/-- Pool states that calls of `getBackend` and `queueBackend` lead to from the
empty pool; what a waiting call sees later are such states as well. -/
inductive Reachable : Pool → Prop
  | init : Reachable poolInit
  | get (dialErr : Option String) (p : Pool) (later : List Pool) :
      Reachable p → (∀ c, c ∈ later → Reachable c) →
      Reachable (getBackend dialErr p later).2
  | queue (be : Backend) (p : Pool) (later : List Pool) :
      Reachable p → (∀ c, c ∈ later → Reachable c) →
      Reachable (queueBackend be p later)

/-! ## Decimal rendering -/

/-- The character of the decimal digit `d`. -/
def digitChar (d : Nat) : Char := Char.ofNat (48 + d)

/-- The decimal digits of `n`, most significant first, put in front of `acc`;
`fuel` bounds the number of digits written. -/
def formatBits : Nat → Nat → List Char → List Char
  | 0, _, acc => acc
  | fuel + 1, n, acc =>
    if n < 10 then digitChar n :: acc
    else formatBits fuel (n / 10) (digitChar (n % 10) :: acc)

/-- Library call `strconv.FormatInt(i, 10)`: the decimal digits of `i`, after a
minus sign when `i` is negative. -/
def formatInt (i : Int) : String :=
  if i < 0 then String.mk ('-' :: formatBits (i.natAbs + 1) i.natAbs [])
  else String.mk (formatBits (i.natAbs + 1) i.natAbs [])

/-- The value of a decimal digit character. -/
def digitValue (c : Char) : Nat := c.toNat - 48

/-- The number written by a list of decimal digit characters. -/
def parseDigits (cs : List Char) : Nat := cs.foldl (fun a c => 10 * a + digitValue c) 0

/-- The integer written by a decimal string with an optional leading minus. -/
def parseInt (s : String) : Int :=
  match s.data with
  | [] => 0
  | c :: cs => if c = '-' then -(parseDigits cs : Int) else (parseDigits (c :: cs) : Int)

/-! ## The relay loop and its goroutines -/

/-- Program points of one `handleConnection` goroutine (main.go 74-135), with
the local variables live there. -/
inductive Worker where
  /-- Line 85: about to call `http.ReadRequest`. -/
  | atReadRequest
  /-- Line 94: inside `getBackend()`. -/
  | atGetBackend (req : Request)
  /-- Line 104: about to call `req.Write(be)`. -/
  | atWriteRequest (req : Request) (be : Backend)
  /-- Lines 108-113: about to flush and run `go queueBackend(be)`. -/
  | atRelease (req : Request) (be : Backend)
  /-- Line 116: reading the response from `be`. -/
  | atReadResponse (req : Request) (be : Backend)
  /-- Lines 123-124: about to update the statistics and set `X-Bytes`. -/
  | atUpdateStats (req : Request) (be : Backend) (resp : Response)
  /-- Lines 127-133: about to send the response, whose body is still read
  from `be`, to the client. -/
  | atWriteResponse (req : Request) (be : Backend) (resp : Response)
  /-- The function has returned; the deferred `conn.Close()` has run. -/
  | returned
deriving DecidableEq, Repr

/-- What happens at a program point of `handleConnection`, with the result the
network supplies there. -/
inductive Action where
  /-- Result of `http.ReadRequest`; `none` for an error or end of stream. -/
  | readRequest (r : Option Request)
  /-- The `select` of `getBackend` is decided; `dialErr` is the error that
  `net.Dial` returns should the timer fire. -/
  | getBackend (dialErr : Option String)
  /-- Result of `req.Write(be)`: `true` when `err == nil`. -/
  | writeRequest (ok : Bool)
  /-- The statements `be.Writer.Flush()` and `go queueBackend(be)`. -/
  | release
  /-- Result of `http.ReadResponse`; `none` for an error. -/
  | readResponse (r : Option Response)
  /-- The statements of lines 123-124. -/
  | updateStats
  /-- Result of `resp.Write(writer)`: `true` when `err == nil`. -/
  | writeResponse (ok : Bool)

/-- The whole program state: the shared pool and registry, one entry per
`handleConnection` goroutine, the `queueBackend` goroutines that have not
finished, and the responses delivered to clients. -/
structure State where
  pool : Pool
  requestBytes : GoMap Int
  workers : List Worker
  releasing : List Backend
  sent : List (Nat × Response)
deriving DecidableEq, Repr

/-- The state after `init`, with `n` client connections just accepted. -/
def initState (n : Nat) : State :=
  { pool := poolInit, requestBytes := requestBytesInit,
    workers := List.replicate n Worker.atReadRequest, releasing := [], sent := [] }

/-- Move worker `w` to program point `k`. -/
def setWorker (s : State) (w : Nat) (k : Worker) : State :=
  { s with workers := s.workers.set w k }

/-- One step of the `handleConnection` goroutine number `w`, standing at the
given program point (main.go 84-134).  `none` when the action does not belong
to that program point. -/
def handleConnection (s : State) (w : Nat) : Worker → Action → Option State
  | .atReadRequest, .readRequest none => some (setWorker s w .returned)
  | .atReadRequest, .readRequest (some req) => some (setWorker s w (.atGetBackend req))
  | .atGetBackend req, .getBackend dialErr =>
    match getBackend dialErr s.pool [] with
    | ((_, some _), p) => some (setWorker { s with pool := p } w .returned)
    | ((some be, none), p) => some (setWorker { s with pool := p } w (.atWriteRequest req be))
    | ((none, none), _) => none
  | .atWriteRequest _ _, .writeRequest false => some (setWorker s w .returned)
  | .atWriteRequest req be, .writeRequest true => some (setWorker s w (.atRelease req be))
  | .atRelease req be, .release =>
    some (setWorker { s with releasing := s.releasing ++ [be] } w (.atReadResponse req be))
  | .atReadResponse _ _, .readResponse none => some (setWorker s w .returned)
  | .atReadResponse req be, .readResponse (some resp) =>
    some (setWorker s w (.atUpdateStats req be resp))
  | .atUpdateStats req be resp, .updateStats =>
    let r := updateStats s.requestBytes req resp
    some (setWorker { s with requestBytes := r.2 } w
      (.atWriteResponse req be
        { resp with header := mapAssign resp.header "X-Bytes" (formatInt r.1) }))
  | .atWriteResponse _ _ resp, .writeResponse ok =>
    some (setWorker
      { s with sent := if ok then s.sent ++ [(w, { resp with close := true })] else s.sent }
      w .atReadRequest)
  | _, _ => none

/-- The steps of the interleaving: a step of worker `w`, or the `select` of the
`i`-th unfinished `queueBackend` goroutine being decided. -/
inductive Event where
  | worker (w : Nat) (a : Action)
  | queueBackend (i : Nat)

/-- One step of the program. -/
def step (s : State) : Event → Option State
  | .worker w a =>
    match s.workers[w]? with
    | some k => handleConnection s w k a
    | none => none
  | .queueBackend i =>
    match s.releasing[i]? with
    | some be =>
      some { s with pool := queueBackend be s.pool [], releasing := s.releasing.eraseIdx i }
    | none => none

/-- A run: the events applied in order, `none` once one of them is not enabled. -/
def run : State → List Event → Option State
  | s, [] => some s
  | s, e :: rest =>
    match step s e with
    | some s' => run s' rest
    | none => none

/-- The Backend a worker is using at its program point, if any. -/
def Worker.backend : Worker → Option Backend
  | .atWriteRequest _ be => some be
  | .atRelease _ be => some be
  | .atReadResponse _ be => some be
  | .atUpdateStats _ be _ => some be
  | .atWriteResponse _ be _ => some be
  | _ => none

/-- The Backend a worker has obtained from `getBackend` and not yet handed to
a `queueBackend` goroutine. -/
def Worker.owned : Worker → List Backend
  | .atWriteRequest _ be => [be]
  | .atRelease _ be => [be]
  | _ => []

/-- The Backends owned by the workers of a list. -/
def workersOwned : List Worker → List Backend
  | [] => []
  | k :: rest => k.owned ++ workersOwned rest

/-- Every Backend that is pooled, awaiting release, closed, or owned by a
worker, with repetitions. -/
def State.tracked (s : State) : List Backend :=
  s.pool.backendQueue ++ s.releasing ++ s.pool.closed ++ workersOwned s.workers

/-- Each Backend is tracked at most once, and only connections made by a dial
that has happened are tracked. -/
def State.WellFormed (s : State) : Prop :=
  ∀ be : Backend, s.tracked.count be ≤ 1 ∧ (s.pool.dials ≤ be.conn → s.tracked.count be = 0)

/-! ## Lemmas on maps and wrapping -/

theorem wrapInt64_of_isInt64 {x : Int} (h : IsInt64 x) : wrapInt64 x = x := by
  unfold IsInt64 minInt64 maxInt64 at h
  unfold wrapInt64
  rw [Int.emod_eq_of_lt (by omega) (by omega)]
  omega

theorem mapFind_mapAssign_same {β : Type} (m : GoMap β) (k : String) (v : β) :
    mapFind (mapAssign m k v) k = some v := by
  induction m with
  | nil => simp [mapAssign, mapFind]
  | cons e rest ih =>
    obtain ⟨k', v'⟩ := e
    by_cases h : k' = k
    · simp [mapAssign, mapFind, h]
    · simp [mapAssign, mapFind, h, ih]

theorem mapFind_mapAssign_other {β : Type} (m : GoMap β) (k q : String) (v : β)
    (hq : q ≠ k) : mapFind (mapAssign m k v) q = mapFind m q := by
  induction m with
  | nil => simp [mapAssign, mapFind, Ne.symm hq]
  | cons e rest ih =>
    obtain ⟨k', v'⟩ := e
    by_cases h : k' = k
    · subst h
      simp [mapAssign, mapFind, Ne.symm hq]
    · by_cases h2 : k' = q
      · subst h2
        simp [mapAssign, mapFind, hq]
      · simp [mapAssign, mapFind, h, h2, ih]

theorem mapIndex_mapAssign_same (m : GoMap Int) (k : String) (v : Int) :
    mapIndex (mapAssign m k v) k = v := by
  simp [mapIndex, mapFind_mapAssign_same]

theorem mapIndex_mapAssign_other (m : GoMap Int) (k q : String) (v : Int)
    (hq : q ≠ k) : mapIndex (mapAssign m k v) q = mapIndex m q := by
  simp [mapIndex, mapFind_mapAssign_other m k q v hq]

/-! ## The statistics registry -/

theorem updateStats_fst (m : GoMap Int) (req : Request) (resp : Response) :
    (updateStats m req resp).1 = mapIndex (updateStats m req resp).2 req.path := by
  simp [updateStats, mapIndex_mapAssign_same]

theorem updateStats_other (m : GoMap Int) (req : Request) (resp : Response)
    (q : String) (hq : q ≠ req.path) :
    mapIndex (updateStats m req resp).2 q = mapIndex m q := by
  simp [updateStats, mapIndex_mapAssign_other _ _ _ _ hq]

theorem updateStats_exact (m : GoMap Int) (p : String) (n : Int) (h0 : 0 ≤ n)
    (hlo : minInt64 ≤ mapIndex m p) (hfit : mapIndex m p + n ≤ maxInt64) :
    mapIndex (updateStats m ⟨p⟩ (respOfLength n)).2 p = mapIndex m p + n := by
  have hne : n ≠ -1 := by omega
  have hw : wrapInt64 (mapIndex m p + n) = mapIndex m p + n :=
    wrapInt64_of_isInt64 ⟨by omega, hfit⟩
  simp [updateStats, respOfLength, mapIndex_mapAssign_same, hne, addInt64, hw]

theorem runStats_append (m : GoMap Int) (xs ys : List (String × Int)) :
    runStats m (xs ++ ys) =
      ((runStats m xs).1 ++ (runStats (runStats m xs).2 ys).1,
        (runStats (runStats m xs).2 ys).2) := by
  induction xs generalizing m with
  | nil => simp [runStats]
  | cons c rest ih =>
    obtain ⟨p, n⟩ := c
    simp [runStats, ih]

theorem runStats_length (m : GoMap Int) (xs : List (String × Int)) :
    (runStats m xs).1.length = xs.length := by
  induction xs generalizing m with
  | nil => simp [runStats]
  | cons c rest ih =>
    obtain ⟨p, n⟩ := c
    simp [runStats, ih]

theorem lengthsFor_nonneg (p : String) (xs : List (String × Int))
    (h : ∀ c ∈ xs, c.1 = p → 0 ≤ c.2) : 0 ≤ lengthsFor p xs := by
  induction xs with
  | nil => simp [lengthsFor]
  | cons c rest ih =>
    obtain ⟨q, n⟩ := c
    have hrest : 0 ≤ lengthsFor p rest := ih (fun c hc => h c (List.mem_cons_of_mem _ hc))
    by_cases hq : q = p
    · have hn : 0 ≤ n := h (q, n) (List.mem_cons_self _ _) hq
      simp [lengthsFor, hq]
      omega
    · simp [lengthsFor, hq]
      exact hrest

/-- After a run in which every call for `p` has a known length and the sum
fits, the total of `p` has grown by exactly that sum. -/
theorem runStats_total (p : String) (xs : List (String × Int)) (m : GoMap Int)
    (hm : 0 ≤ mapIndex m p) (h : ∀ c ∈ xs, c.1 = p → 0 ≤ c.2)
    (hfit : mapIndex m p + lengthsFor p xs ≤ maxInt64) :
    mapIndex (runStats m xs).2 p = mapIndex m p + lengthsFor p xs := by
  induction xs generalizing m with
  | nil => simp [runStats, lengthsFor]
  | cons c rest ih =>
    obtain ⟨q, n⟩ := c
    have hrest : ∀ c ∈ rest, c.1 = p → 0 ≤ c.2 :=
      fun c hc => h c (List.mem_cons_of_mem _ hc)
    have hnn : 0 ≤ lengthsFor p rest := lengthsFor_nonneg p rest hrest
    by_cases hq : q = p
    · subst hq
      have hn : 0 ≤ n := h (q, n) (List.mem_cons_self _ _) rfl
      simp only [lengthsFor, if_true] at hfit
      have hstep := updateStats_exact m q n hn (by unfold minInt64; omega) (by omega)
      have := ih (updateStats m ⟨q⟩ (respOfLength n)).2 (by rw [hstep]; omega)
        hrest (by rw [hstep]; omega)
      simp only [runStats, lengthsFor, if_true]
      rw [this, hstep]
      omega
    · simp only [lengthsFor, if_neg hq, zero_add] at hfit
      have hstep : mapIndex (updateStats m ⟨q⟩ (respOfLength n)).2 p = mapIndex m p :=
        updateStats_other m ⟨q⟩ (respOfLength n) p (fun e => hq e.symm)
      have := ih (updateStats m ⟨q⟩ (respOfLength n)).2 (by rw [hstep]; exact hm)
        hrest (by rw [hstep]; exact hfit)
      simp only [runStats, lengthsFor, if_neg hq, zero_add]
      rw [this, hstep]

/-- Whatever the registry holds, a response of unknown length makes
`updateStats` store and return 0. -/
theorem updateStats_unknown_length (m : GoMap Int) (p : String) :
    updateStats m ⟨p⟩ (respOfLength (-1)) = (0, mapAssign m p 0) := by
  simp [updateStats, respOfLength]

/-- C1: on a registry holding 100 bytes for `/a`, a response of unknown length
(`ContentLength = -1`) for `/a` makes `updateStats` return 0 and store 0, so
the total of `/a` is reset rather than left at 100. -/
theorem updateStats_unknown_length_resets :
    mapIndex [("/a", 100)] "/a" = 100 ∧
      updateStats [("/a", 100)] ⟨"/a"⟩ (respOfLength (-1)) = (0, [("/a", 0)]) ∧
      mapIndex (updateStats [("/a", 100)] ⟨"/a"⟩ (respOfLength (-1))).2 "/a" ≠
        mapIndex [("/a", 100)] "/a" := by
  decide

/-- C2, as stated, fails at the top of the `int64` range: with a stored total
of `maxInt64` and a content length of 1 the stored and returned value is
`minInt64`, not `maxInt64 + 1`. -/
theorem updateStats_sum_overflows :
    (0 : Int) ≤ 1 ∧ IsInt64 (mapIndex [("/a", maxInt64)] "/a") ∧
      updateStats [("/a", maxInt64)] ⟨"/a"⟩ (respOfLength 1) =
        (minInt64, [("/a", minInt64)]) ∧
      mapIndex (updateStats [("/a", maxInt64)] ⟨"/a"⟩ (respOfLength 1)).2 "/a" ≠
        mapIndex [("/a", maxInt64)] "/a" + 1 := by
  decide

/-- C2 (amended): for every registry holding an `int64` total for `p` and every
content length `n ≥ 0` with `old(p) + n ≤ maxInt64`, `updateStats` stores
`old(p) + n` for `p` (old taken as 0 when `p` is absent) and returns exactly the
value it stored. -/
theorem updateStats_known_length (m : GoMap Int) (p : String) (resp : Response)
    (h0 : 0 ≤ resp.contentLength) (hm : IsInt64 (mapIndex m p))
    (hfit : mapIndex m p + resp.contentLength ≤ maxInt64) :
    mapIndex (updateStats m ⟨p⟩ resp).2 p = mapIndex m p + resp.contentLength ∧
      (updateStats m ⟨p⟩ resp).1 = mapIndex (updateStats m ⟨p⟩ resp).2 p ∧
      (mapFind m p = none → (updateStats m ⟨p⟩ resp).1 = resp.contentLength) := by
  have hne : resp.contentLength ≠ -1 := by omega
  have hw : wrapInt64 (mapIndex m p + resp.contentLength) =
      mapIndex m p + resp.contentLength :=
    wrapInt64_of_isInt64 ⟨by have := hm.1; omega, hfit⟩
  refine ⟨?_, updateStats_fst m ⟨p⟩ resp, ?_⟩
  · simp [updateStats, mapIndex_mapAssign_same, hne, addInt64, hw]
  · intro habs
    have h0' : mapIndex m p = 0 := by simp [mapIndex, habs]
    rw [h0', zero_add] at hw
    simp [updateStats, hne, addInt64, hw, h0']

/-- Witness for C2 (amended): 100 bytes stored for `/a`, 50 more arrive. -/
theorem updateStats_known_length_witness :
    mapIndex (updateStats [("/a", 100)] ⟨"/a"⟩ (respOfLength 50)).2 "/a" = 100 + 50 ∧
      (updateStats [("/a", 100)] ⟨"/a"⟩ (respOfLength 50)).1 =
        mapIndex (updateStats [("/a", 100)] ⟨"/a"⟩ (respOfLength 50)).2 "/a" := by
  have h := updateStats_known_length [("/a", 100)] "/a" (respOfLength 50)
    (by decide) (by decide) (by decide)
  exact ⟨h.1, h.2.1⟩

/-- C3: starting from the empty registry, in any call sequence
`pre ++ (p, L) :: post` whose calls for `p` up to and including `(p, L)` carry
non-negative lengths with a sum that fits in `int64`, the call `(p, L)` returns
the sum of all lengths sent for `p` so far, whatever calls for other paths are
interleaved and whatever follows. -/
theorem runStats_returns_running_sum (pre post : List (String × Int)) (p : String)
    (L : Int) (hpre : ∀ c ∈ pre, c.1 = p → 0 ≤ c.2) (hL : 0 ≤ L)
    (hfit : lengthsFor p pre + L ≤ maxInt64) :
    (runStats requestBytesInit (pre ++ (p, L) :: post)).1[pre.length]? =
      some (lengthsFor p pre + L) := by
  have hnn : 0 ≤ lengthsFor p pre := lengthsFor_nonneg p pre hpre
  have h0 : mapIndex requestBytesInit p = 0 := by simp [requestBytesInit, mapIndex, mapFind]
  have htot := runStats_total p pre requestBytesInit (by rw [h0]) hpre (by rw [h0]; omega)
  rw [h0, zero_add] at htot
  have hstep := updateStats_exact (runStats requestBytesInit pre).2 p L hL
    (by rw [htot]; unfold minInt64; omega) (by rw [htot]; exact hfit)
  rw [runStats_append]
  simp only
  rw [List.getElem?_append_right (by rw [runStats_length])]
  simp only [runStats_length, Nat.sub_self, runStats, List.getElem?_cons_zero]
  rw [updateStats_fst, hstep, htot]

/-- Witness for C3: lengths 100 then 50 on `/a`, with a call for `/b` in
between, return 100 then 150. -/
theorem runStats_returns_running_sum_witness :
    (runStats requestBytesInit [("/a", 100), ("/b", 7), ("/a", 50)]).1 = [100, 7, 150] ∧
      (runStats requestBytesInit ([("/a", 100), ("/b", 7)] ++ ("/a", 50) :: [])).1[2]? =
        some (lengthsFor "/a" [("/a", 100), ("/b", 7)] + 50) :=
  ⟨by decide,
    runStats_returns_running_sum [("/a", 100), ("/b", 7)] [] "/a" 50
      (by decide) (by decide) (by decide)⟩

/-- One call that is of unknown length, or adds a known length without
overflow, keeps every stored total non-negative. -/
theorem updateStats_nonneg (m : GoMap Int) (p : String) (n : Int)
    (hm : ∀ q, 0 ≤ mapIndex m q)
    (hn : n = -1 ∨ (0 ≤ n ∧ mapIndex m p + n ≤ maxInt64)) (q : String) :
    0 ≤ mapIndex (updateStats m ⟨p⟩ (respOfLength n)).2 q := by
  by_cases hq : q = p
  · subst hq
    rcases hn with h | ⟨h0, hfit⟩
    · subst h
      simp [updateStats, respOfLength, mapIndex_mapAssign_same]
    · rw [updateStats_exact m q n h0 (by have := hm q; unfold minInt64; omega) hfit]
      have := hm q
      omega
  · rw [updateStats_other m ⟨p⟩ (respOfLength n) q hq]
    exact hm q

theorem runStats_nonneg_from (xs : List (String × Int)) (m : GoMap Int)
    (hm : ∀ q, 0 ≤ mapIndex m q) (h : noOverflow m xs = true) (q : String) :
    0 ≤ mapIndex (runStats m xs).2 q := by
  induction xs generalizing m with
  | nil => simpa [runStats] using hm q
  | cons c rest ih =>
    obtain ⟨p, n⟩ := c
    simp only [noOverflow, Bool.and_eq_true, Bool.or_eq_true, decide_eq_true_eq] at h
    simp only [runStats]
    exact ih _ (updateStats_nonneg m p n hm h.1) h.2

/-- C9, as stated, fails: two calls for `/a` with the known lengths `maxInt64`
and 1 lead from the empty registry to a state storing `minInt64` for `/a`. -/
theorem runStats_reaches_negative_total :
    (∀ c ∈ [("/a", maxInt64), ("/a", (1 : Int))], c.2 = -1 ∨ 0 ≤ c.2) ∧
      mapIndex (runStats requestBytesInit [("/a", maxInt64), ("/a", 1)]).2 "/a" = minInt64 ∧
      mapIndex (runStats requestBytesInit [("/a", maxInt64), ("/a", 1)]).2 "/a" < 0 := by
  decide

/-- C9 (amended): in every registry state reached from the empty registry by
calls whose content length is `-1` or non-negative and none of which adds past
`maxInt64`, the total stored for every path is non-negative. -/
theorem runStats_totals_nonneg (calls : List (String × Int))
    (h : noOverflow requestBytesInit calls = true) (q : String) :
    0 ≤ mapIndex (runStats requestBytesInit calls).2 q :=
  runStats_nonneg_from calls requestBytesInit
    (fun q => by simp [requestBytesInit, mapIndex, mapFind]) h q

/-- Witness for C9 (amended): a known length, an unknown one, and another path. -/
theorem runStats_totals_nonneg_witness :
    noOverflow requestBytesInit [("/a", 100), ("/a", -1), ("/b", 7)] = true ∧
      0 ≤ mapIndex (runStats requestBytesInit [("/a", 100), ("/a", -1), ("/b", 7)]).2 "/a" :=
  ⟨by decide, runStats_totals_nonneg [("/a", 100), ("/a", -1), ("/b", 7)] (by decide) "/a"⟩

/-! ## The backend pool -/

theorem trySend_length (p p' : Pool) (be : Backend) (h : trySend p be = some p') :
    p'.backendQueue.length ≤ backendQueueCap := by
  unfold trySend at h
  split at h
  · cases h
    simp
    omega
  · cases h

theorem tryRecv_length (p p' : Pool) (be : Backend) (h : tryRecv p = some (be, p')) :
    p'.backendQueue.length + 1 = p.backendQueue.length := by
  unfold tryRecv at h
  split at h
  · cases h
  · rename_i b rest hq
    cases h
    simp [hq]

theorem getBackend_length (dial : Option String) (p : Pool) (later : List Pool)
    (hp : p.backendQueue.length ≤ backendQueueCap)
    (hl : ∀ c, c ∈ later → c.backendQueue.length ≤ backendQueueCap) :
    (getBackend dial p later).2.backendQueue.length ≤ backendQueueCap := by
  induction later generalizing p with
  | nil =>
    simp only [getBackend]
    split
    · rename_i be p' h
      have := tryRecv_length p p' be h
      show p'.backendQueue.length ≤ backendQueueCap
      omega
    · cases dial <;> exact hp
  | cons c rest ih =>
    simp only [getBackend]
    split
    · rename_i be p' h
      have := tryRecv_length p p' be h
      show p'.backendQueue.length ≤ backendQueueCap
      omega
    · exact ih c (hl c (List.mem_cons_self _ _))
        (fun d hd => hl d (List.mem_cons_of_mem _ hd))

theorem queueBackend_length (be : Backend) (p : Pool) (later : List Pool)
    (hp : p.backendQueue.length ≤ backendQueueCap)
    (hl : ∀ c, c ∈ later → c.backendQueue.length ≤ backendQueueCap) :
    (queueBackend be p later).backendQueue.length ≤ backendQueueCap := by
  induction later generalizing p with
  | nil =>
    simp only [queueBackend]
    split
    · rename_i p' h
      exact trySend_length p p' be h
    · exact hp
  | cons c rest ih =>
    simp only [queueBackend]
    split
    · rename_i p' h
      exact trySend_length p p' be h
    · exact ih c (hl c (List.mem_cons_self _ _))
        (fun d hd => hl d (List.mem_cons_of_mem _ hd))

/-- C5: in every pool state reachable from the empty pool by calls of
`getBackend` and `queueBackend`, `backendQueue` holds at most 10 Backends. -/
theorem backendQueue_length_le (p : Pool) (h : Reachable p) :
    p.backendQueue.length ≤ 10 := by
  induction h with
  | init => simp [poolInit]
  | get dial p later _ _ ihp ihl => exact getBackend_length dial p later ihp ihl
  | queue be p later _ _ ihp ihl => exact queueBackend_length be p later ihp ihl

/-- Witness for C5: the pool after two releases and one acquisition. -/
theorem backendQueue_length_le_witness :
    (getBackend none (queueBackend ⟨2⟩ (queueBackend ⟨1⟩ poolInit []) []) []).2
        = { backendQueue := [⟨2⟩], closed := [], dials := 0 } ∧
      (getBackend none
          (queueBackend ⟨2⟩ (queueBackend ⟨1⟩ poolInit []) []) []).2.backendQueue.length ≤ 10 :=
  ⟨by decide,
    backendQueue_length_le _
      (Reachable.get none _ []
        (Reachable.queue ⟨2⟩ _ []
          (Reachable.queue ⟨1⟩ _ [] Reachable.init (by simp)) (by simp))
        (by simp))⟩

theorem trySend_eq_some (p : Pool) (be : Backend)
    (h : p.backendQueue.length < backendQueueCap) :
    trySend p be = some { p with backendQueue := p.backendQueue ++ [be] } := by
  simp [trySend, h]

theorem trySend_eq_none (p : Pool) (be : Backend)
    (h : backendQueueCap ≤ p.backendQueue.length) : trySend p be = none := by
  simp [trySend, Nat.not_lt.mpr h]

/-- How a call of `queueBackend` ends: by the send at the first instant with
room, or by `Close` after the pool was full at every instant of the wait. -/
theorem queueBackend_cases (be : Backend) (p : Pool) (later : List Pool) :
    (∃ c, c ∈ p :: later ∧ c.backendQueue.length < backendQueueCap ∧
        queueBackend be p later = { c with backendQueue := c.backendQueue ++ [be] }) ∨
      ((∀ c, c ∈ p :: later → backendQueueCap ≤ c.backendQueue.length) ∧
        ∃ c, c ∈ p :: later ∧ queueBackend be p later = { c with closed := be :: c.closed }) := by
  induction later generalizing p with
  | nil =>
    by_cases h : p.backendQueue.length < backendQueueCap
    · left
      exact ⟨p, by simp, h, by simp [queueBackend, trySend_eq_some p be h]⟩
    · right
      have h' : backendQueueCap ≤ p.backendQueue.length := Nat.not_lt.mp h
      refine ⟨by simpa using h', p, by simp, ?_⟩
      simp [queueBackend, trySend_eq_none p be h']
  | cons n rest ih =>
    by_cases h : p.backendQueue.length < backendQueueCap
    · left
      exact ⟨p, by simp, h, by simp [queueBackend, trySend_eq_some p be h]⟩
    · have h' : backendQueueCap ≤ p.backendQueue.length := Nat.not_lt.mp h
      have hq : queueBackend be p (n :: rest) = queueBackend be n rest := by
        simp [queueBackend, trySend_eq_none p be h']
      rw [hq]
      rcases ih n with ⟨c, hc, hlt, heq⟩ | ⟨hall, c, hc, heq⟩
      · left
        exact ⟨c, List.mem_cons_of_mem _ hc, hlt, heq⟩
      · right
        refine ⟨?_, c, List.mem_cons_of_mem _ hc, heq⟩
        intro d hd
        rcases List.mem_cons.mp hd with rfl | hd
        · exact h'
        · exact hall d hd

/-- C6: a call `queueBackend(be)` for a Backend that is neither pooled nor
closed while the call waits ends in exactly one of two ways: `be` is in the pool
and not closed, or `be` is closed and not in the pool.  When the pool holds
fewer than 10 Backends at the call, `be` is appended to it and nothing is
closed; `be` is closed only if the pool held 10 or more at every instant of
the wait. -/
theorem queueBackend_inserts_or_closes (be : Backend) (p : Pool) (later : List Pool)
    (hfresh : ∀ c, c ∈ p :: later → be ∉ c.backendQueue ∧ be ∉ c.closed) :
    Xor' (be ∈ (queueBackend be p later).backendQueue ∧
            be ∉ (queueBackend be p later).closed)
        (be ∈ (queueBackend be p later).closed ∧
            be ∉ (queueBackend be p later).backendQueue) ∧
      (p.backendQueue.length < 10 →
        queueBackend be p later = { p with backendQueue := p.backendQueue ++ [be] }) ∧
      (be ∈ (queueBackend be p later).closed →
        ∀ c, c ∈ p :: later → 10 ≤ c.backendQueue.length) := by
  refine ⟨?_, ?_, ?_⟩
  · rcases queueBackend_cases be p later with ⟨c, hc, _, heq⟩ | ⟨_, c, hc, heq⟩
    · have hf := hfresh c hc
      rw [heq]
      left
      exact ⟨⟨by simp, hf.2⟩, fun h => h.2 (by simp)⟩
    · have hf := hfresh c hc
      rw [heq]
      right
      exact ⟨⟨by simp, hf.1⟩, fun h => h.2 (by simp)⟩
  · intro h
    cases later <;> simp [queueBackend, trySend_eq_some p be h]
  · intro hcl
    rcases queueBackend_cases be p later with ⟨c, hc, _, heq⟩ | ⟨hall, _⟩
    · rw [heq] at hcl
      exact absurd hcl (hfresh c hc).2
    · exact hall

/-- Witness for C6: releasing Backend 3 into a pool holding Backends 1 and 2
inserts it; releasing Backend 10 into a pool that stays full closes it. -/
theorem queueBackend_inserts_or_closes_witness :
    queueBackend ⟨3⟩ { backendQueue := [⟨1⟩, ⟨2⟩], closed := [], dials := 4 } [] =
        { backendQueue := [⟨1⟩, ⟨2⟩, ⟨3⟩], closed := [], dials := 4 } ∧
      queueBackend ⟨10⟩
          { backendQueue := [⟨0⟩, ⟨1⟩, ⟨2⟩, ⟨3⟩, ⟨4⟩, ⟨5⟩, ⟨6⟩, ⟨7⟩, ⟨8⟩, ⟨9⟩],
            closed := [], dials := 11 } [] =
        { backendQueue := [⟨0⟩, ⟨1⟩, ⟨2⟩, ⟨3⟩, ⟨4⟩, ⟨5⟩, ⟨6⟩, ⟨7⟩, ⟨8⟩, ⟨9⟩],
          closed := [⟨10⟩], dials := 11 } ∧
      Xor' ((⟨3⟩ : Backend) ∈ (queueBackend ⟨3⟩
              { backendQueue := [⟨1⟩, ⟨2⟩], closed := [], dials := 4 } []).backendQueue ∧
            (⟨3⟩ : Backend) ∉ (queueBackend ⟨3⟩
              { backendQueue := [⟨1⟩, ⟨2⟩], closed := [], dials := 4 } []).closed)
        ((⟨3⟩ : Backend) ∈ (queueBackend ⟨3⟩
              { backendQueue := [⟨1⟩, ⟨2⟩], closed := [], dials := 4 } []).closed ∧
            (⟨3⟩ : Backend) ∉ (queueBackend ⟨3⟩
              { backendQueue := [⟨1⟩, ⟨2⟩], closed := [], dials := 4 } []).backendQueue) :=
  ⟨by decide, by decide,
    (queueBackend_inserts_or_closes ⟨3⟩
      { backendQueue := [⟨1⟩, ⟨2⟩], closed := [], dials := 4 } [] (by decide)).1⟩

theorem tryRecv_eq_none (p : Pool) (h : p.backendQueue = []) : tryRecv p = none := by
  simp [tryRecv, h]

theorem tryRecv_eq_some (p : Pool) (be : Backend) (rest : List Backend)
    (h : p.backendQueue = be :: rest) :
    tryRecv p = some (be, { p with backendQueue := rest }) := by
  simp [tryRecv, h]

/-- What `net.Dial` contributes to the result of `getBackend`. -/
theorem getBackend_dial (dial : Option String) (p : Pool)
    (h : p.backendQueue = []) :
    getBackend dial p [] =
      (match dial with
        | some err => (none, some err)
        | none => (some { conn := p.dials }, none),
       { p with dials := p.dials + 1 }) := by
  cases dial <;> simp [getBackend, tryRecv_eq_none p h]

/-- How a call of `getBackend` ends: by the receive at the first instant at
which the pool is not empty, or by `net.Dial` after the pool was empty at every
instant of the wait. -/
theorem getBackend_cases (dial : Option String) (p : Pool) (later : List Pool) :
    (∃ c be rest, c ∈ p :: later ∧ c.backendQueue = be :: rest ∧
        getBackend dial p later = ((some be, none), { c with backendQueue := rest })) ∨
      ((∀ c, c ∈ p :: later → c.backendQueue = []) ∧
        ∃ c, c ∈ p :: later ∧ getBackend dial p later = getBackend dial c []) := by
  induction later generalizing p with
  | nil =>
    cases hq : p.backendQueue with
    | nil =>
      right
      exact ⟨by simpa using hq, p, by simp, rfl⟩
    | cons be rest =>
      left
      exact ⟨p, be, rest, by simp, hq, by simp [getBackend, tryRecv_eq_some p be rest hq]⟩
  | cons n tl ih =>
    cases hq : p.backendQueue with
    | nil =>
      have hg : getBackend dial p (n :: tl) = getBackend dial n tl := by
        simp [getBackend, tryRecv_eq_none p hq]
      rw [hg]
      rcases ih n with ⟨c, be, rest, hc, hcq, heq⟩ | ⟨hall, c, hc, heq⟩
      · left
        exact ⟨c, be, rest, List.mem_cons_of_mem _ hc, hcq, heq⟩
      · right
        refine ⟨?_, c, List.mem_cons_of_mem _ hc, heq⟩
        intro d hd
        rcases List.mem_cons.mp hd with rfl | hd
        · exact hq
        · exact hall d hd
    | cons be rest =>
      left
      exact ⟨p, be, rest, by simp, hq, by simp [getBackend, tryRecv_eq_some p be rest hq]⟩

/-- C7: `getBackend` returns an error exactly when the pool was empty at every
instant of the wait and `net.Dial` failed.  When the pool is not empty at the
call it returns the oldest pooled Backend without error, the pool loses that
one Backend, and no dial is made.  A call that returns an error returns no
Backend, and a call that returns no error returns a Backend. -/
theorem getBackend_fails_iff (dial : Option String) (p : Pool) (later : List Pool) :
    ((getBackend dial p later).1.2 ≠ none ↔
        (∀ c, c ∈ p :: later → c.backendQueue = []) ∧ ∃ err, dial = some err) ∧
      (∀ be rest, p.backendQueue = be :: rest →
        getBackend dial p later = ((some be, none), { p with backendQueue := rest }) ∧
          (getBackend dial p later).2.backendQueue.length + 1 = p.backendQueue.length ∧
          (getBackend dial p later).2.dials = p.dials) ∧
      ((getBackend dial p later).1.2 ≠ none → (getBackend dial p later).1.1 = none) ∧
      ((getBackend dial p later).1.2 = none → (getBackend dial p later).1.1 ≠ none) := by
  have hcases := getBackend_cases dial p later
  refine ⟨⟨?_, ?_⟩, ?_, ?_, ?_⟩
  · intro herr
    rcases hcases with ⟨c, be, rest, _, _, heq⟩ | ⟨hall, c, hc, heq⟩
    · rw [heq] at herr
      exact absurd rfl herr
    · refine ⟨hall, ?_⟩
      rw [heq, getBackend_dial dial c (hall c hc)] at herr
      cases dial with
      | some err => exact ⟨err, rfl⟩
      | none => exact absurd rfl herr
  · rintro ⟨hall, err, rfl⟩
    rcases hcases with ⟨c, be, rest, hc, hcq, _⟩ | ⟨_, c, hc, heq⟩
    · rw [hall c hc] at hcq
      cases hcq
    · rw [heq, getBackend_dial _ c (hall c hc)]
      simp
  · intro be rest hq
    have heq : getBackend dial p later = ((some be, none), { p with backendQueue := rest }) := by
      cases later <;> simp [getBackend, tryRecv_eq_some p be rest hq]
    refine ⟨heq, ?_, ?_⟩
    · rw [heq, hq]
      simp
    · rw [heq]
  · intro herr
    rcases hcases with ⟨c, be, rest, _, _, heq⟩ | ⟨hall, c, hc, heq⟩
    · rw [heq] at herr
      exact absurd rfl herr
    · rw [heq, getBackend_dial dial c (hall c hc)] at herr ⊢
      cases dial with
      | some err => rfl
      | none => exact absurd rfl herr
  · intro hok
    rcases hcases with ⟨c, be, rest, _, _, heq⟩ | ⟨hall, c, hc, heq⟩
    · rw [heq]
      simp
    · rw [heq, getBackend_dial dial c (hall c hc)] at hok ⊢
      cases dial with
      | some err => simp at hok
      | none => simp

/-- Witness for C7: an empty pool with a failing dial, and a pool holding
Backends 1 and 2. -/
theorem getBackend_fails_iff_witness :
    getBackend (some "refused") poolInit [] =
        ((none, some "refused"), { backendQueue := [], closed := [], dials := 1 }) ∧
      getBackend (some "refused") { backendQueue := [⟨1⟩, ⟨2⟩], closed := [], dials := 2 } [] =
        ((some ⟨1⟩, none), { backendQueue := [⟨2⟩], closed := [], dials := 2 }) ∧
      ((getBackend (some "refused") poolInit []).1.2 ≠ none →
        (getBackend (some "refused") poolInit []).1.1 = none) :=
  ⟨by decide, by decide, (getBackend_fails_iff (some "refused") poolInit []).2.2.1⟩

/-! ## The relay loop -/

theorem digitValue_digitChar (d : Nat) (h : d < 10) : digitValue (digitChar d) = d := by
  interval_cases d <;> rfl

theorem digitChar_ne_minus (d : Nat) (h : d < 10) : digitChar d ≠ '-' := by
  interval_cases d <;> decide

theorem parseDigits_formatBits (fuel n : Nat) (acc : List Char) (h : n < fuel) :
    parseDigits (formatBits fuel n acc) =
      acc.foldl (fun a c => 10 * a + digitValue c) n := by
  induction fuel generalizing n acc with
  | zero => omega
  | succ fuel ih =>
    by_cases hn : n < 10
    · simp [formatBits, hn, parseDigits, digitValue_digitChar n hn]
    · have hd : n / 10 < fuel := by omega
      have hm : n % 10 < 10 := Nat.mod_lt _ (by decide)
      simp only [formatBits, if_neg hn]
      rw [ih (n / 10) _ hd]
      simp only [List.foldl_cons, digitValue_digitChar _ hm]
      congr 1
      omega

theorem formatBits_head (fuel n : Nat) (acc : List Char) (h : n < fuel) :
    ∃ d tl, d < 10 ∧ formatBits fuel n acc = digitChar d :: tl := by
  induction fuel generalizing n acc with
  | zero => omega
  | succ fuel ih =>
    by_cases hn : n < 10
    · exact ⟨n, acc, hn, by simp [formatBits, hn]⟩
    · simp only [formatBits, if_neg hn]
      exact ih (n / 10) _ (by omega)

/-- The string made by `formatInt` is a decimal numeral of its argument. -/
theorem parseInt_formatInt (i : Int) : parseInt (formatInt i) = i := by
  have hp := parseDigits_formatBits (i.natAbs + 1) i.natAbs [] (Nat.lt_succ_self _)
  simp only [List.foldl_nil] at hp
  by_cases hi : i < 0
  · simp only [formatInt, if_pos hi, parseInt, if_true, hp]
    omega
  · obtain ⟨d, tl, hd, heq⟩ := formatBits_head (i.natAbs + 1) i.natAbs [] (Nat.lt_succ_self _)
    rw [heq] at hp
    simp only [formatInt, if_neg hi, parseInt, heq, if_neg (digitChar_ne_minus d hd), hp]
    omega

theorem setWorker_workers (s : State) (w : Nat) (k : Worker) (h : w < s.workers.length) :
    (setWorker s w k).workers[w]? = some k := by
  simp [setWorker, h]

/-- C4: when worker `w` stands at lines 123-124 with request `req` and response
`resp`, its step runs `updateStats` and leaves it about to send a response
whose `X-Bytes` header is `strconv.FormatInt` of the total the registry holds
for `req.URL.Path` right after that update, a decimal numeral of that total;
the response then delivered to the client carries this header. -/
theorem handleConnection_sets_xBytes (s : State) (w : Nat) (req : Request)
    (be : Backend) (resp : Response)
    (hw : s.workers[w]? = some (.atUpdateStats req be resp)) :
    ∃ s' resp', step s (.worker w .updateStats) = some s' ∧
      s'.requestBytes = (updateStats s.requestBytes req resp).2 ∧
      s'.workers[w]? = some (.atWriteResponse req be resp') ∧
      mapFind resp'.header "X-Bytes" =
        some (formatInt (mapIndex s'.requestBytes req.path)) ∧
      (mapFind resp'.header "X-Bytes").map parseInt =
        some (mapIndex s'.requestBytes req.path) ∧
      (step s' (.worker w (.writeResponse true))).map (fun t => t.sent) =
        some (s.sent ++ [(w, { resp' with close := true })]) := by
  have hlt : w < s.workers.length := by
    rcases Nat.lt_or_ge w s.workers.length with h | h
    · exact h
    · rw [List.getElem?_eq_none h] at hw
      cases hw
  have hfst := updateStats_fst s.requestBytes req resp
  refine ⟨setWorker { s with requestBytes := (updateStats s.requestBytes req resp).2 } w
      (.atWriteResponse req be { resp with header := (mapAssign resp.header "X-Bytes"
        (formatInt (updateStats s.requestBytes req resp).1)) }),
    { resp with header := (mapAssign resp.header "X-Bytes"
      (formatInt (updateStats s.requestBytes req resp).1)) }, ?_, ?_, ?_, ?_, ?_, ?_⟩
  · simp only [step, hw, handleConnection]
  · simp [setWorker]
  · simp [setWorker, hlt]
  · simp only [setWorker, mapFind_mapAssign_same, hfst]
  · simp only [setWorker, mapFind_mapAssign_same, Option.map_some', parseInt_formatInt, hfst]
  · simp [step, setWorker, hlt, handleConnection]

/-- Witness for C4: one worker relays a response of 150 bytes for `/a`. -/
theorem handleConnection_sets_xBytes_witness :
    (step { initState 1 with workers := [.atUpdateStats ⟨"/a"⟩ ⟨1⟩ (respOfLength 150)] }
        (.worker 0 .updateStats)).map (fun t => t.workers) =
      some [.atWriteResponse ⟨"/a"⟩ ⟨1⟩
        { respOfLength 150 with header := [("X-Bytes", "150")] }] ∧
    ∃ (s' : State) (resp' : Response),
      step { initState 1 with workers := [.atUpdateStats ⟨"/a"⟩ ⟨1⟩ (respOfLength 150)] }
        (.worker 0 .updateStats) = some s' ∧
      mapFind resp'.header "X-Bytes" = some (formatInt (mapIndex s'.requestBytes "/a")) := by
  refine ⟨by decide, ?_⟩
  obtain ⟨s', resp', h1, _, _, h4, _⟩ := handleConnection_sets_xBytes
    { initState 1 with workers := [.atUpdateStats ⟨"/a"⟩ ⟨1⟩ (respOfLength 150)] }
    0 ⟨"/a"⟩ ⟨1⟩ (respOfLength 150) (by decide)
  exact ⟨s', resp', h1, h4⟩

/-- A worker that has returned takes no further step. -/
theorem handleConnection_returned (s : State) (w : Nat) (a : Action) :
    handleConnection s w .returned a = none := by
  cases a <;> rfl

/-- Failure to read the request, to write it to the Backend, or to read the
response makes the worker return. -/
theorem handleConnection_failure_returns (s : State) (w : Nat) (req : Request)
    (be : Backend) :
    handleConnection s w .atReadRequest (.readRequest none) =
        some (setWorker s w .returned) ∧
      handleConnection s w (.atWriteRequest req be) (.writeRequest false) =
        some (setWorker s w .returned) ∧
      handleConnection s w (.atReadResponse req be) (.readResponse none) =
        some (setWorker s w .returned) :=
  ⟨rfl, rfl, rfl⟩

/-- Failure of `getBackend` makes the worker return. -/
theorem handleConnection_getBackend_failure (s : State) (w : Nat) (req : Request)
    (dial : Option String) (h : (getBackend dial s.pool []).1.2 ≠ none) :
    handleConnection s w (.atGetBackend req) (.getBackend dial) =
      some (setWorker { s with pool := (getBackend dial s.pool []).2 } w .returned) := by
  simp only [handleConnection]
  generalize getBackend dial s.pool [] = r at h ⊢
  obtain ⟨⟨b, e⟩, p⟩ := r
  cases e with
  | none => exact absurd rfl h
  | some err => cases b <;> rfl

/-- A failed `resp.Write(writer)` sends the worker back to line 85, whatever
the state. -/
theorem handleConnection_writeResponse_failure (s : State) (w : Nat) (req : Request)
    (be : Backend) (resp : Response) :
    handleConnection s w (.atWriteResponse req be resp) (.writeResponse false) =
      some (setWorker s w .atReadRequest) := by
  simp [handleConnection]

/-- C8: one client connection whose first response cannot be written to the
client (`resp.Write` fails): the worker does not return but stands at line 85
again, and reads the next request `/b` from the same connection. -/
theorem handleConnection_reads_on_after_failed_write :
    (run (initState 1)
        [.worker 0 (.readRequest (some ⟨"/a"⟩)), .worker 0 (.getBackend none),
          .worker 0 (.writeRequest true), .worker 0 .release,
          .worker 0 (.readResponse (some (respOfLength 5))), .worker 0 .updateStats,
          .worker 0 (.writeResponse false)]).map (fun s => s.workers) =
        some [.atReadRequest] ∧
      (run (initState 1)
        [.worker 0 (.readRequest (some ⟨"/a"⟩)), .worker 0 (.getBackend none),
          .worker 0 (.writeRequest true), .worker 0 .release,
          .worker 0 (.readResponse (some (respOfLength 5))), .worker 0 .updateStats,
          .worker 0 (.writeResponse false),
          .worker 0 (.readRequest (some ⟨"/b"⟩))]).map (fun s => s.workers) =
        some [.atGetBackend ⟨"/b"⟩] := by
  decide

/-- C10: there is a run of two workers in which worker 0 has written its
request to a freshly dialled Backend, its `queueBackend` goroutine has put that
Backend into the pool, and worker 0 is still reading the response from it, when
the `getBackend` of worker 1 takes that very Backend out of the pool: both
workers then use the same Backend. -/
theorem backend_held_by_two_workers :
    ∃ (evs : List Event) (s s' : State) (be : Backend) (ra rb : Request),
      run (initState 2) evs = some s ∧
      s.workers = [.atReadResponse ra be, .atGetBackend rb] ∧
      s.pool.backendQueue = [be] ∧
      (∀ dial, step s (.worker 1 (.getBackend dial)) = some s') ∧
      s'.workers = [.atReadResponse ra be, .atWriteRequest rb be] ∧
      s'.workers[0]?.bind Worker.backend = some be ∧
      s'.workers[1]?.bind Worker.backend = some be :=
  ⟨[.worker 0 (.readRequest (some ⟨"/a"⟩)), .worker 1 (.readRequest (some ⟨"/b"⟩)),
      .worker 0 (.getBackend none), .worker 0 (.writeRequest true),
      .worker 0 .release, .queueBackend 0],
    { pool := { backendQueue := [⟨0⟩], closed := [], dials := 1 },
      requestBytes := [],
      workers := [.atReadResponse ⟨"/a"⟩ ⟨0⟩, .atGetBackend ⟨"/b"⟩],
      releasing := [], sent := [] },
    { pool := { backendQueue := [], closed := [], dials := 1 },
      requestBytes := [],
      workers := [.atReadResponse ⟨"/a"⟩ ⟨0⟩, .atWriteRequest ⟨"/b"⟩ ⟨0⟩],
      releasing := [], sent := [] },
    ⟨0⟩, ⟨"/a"⟩, ⟨"/b"⟩, by decide, rfl, rfl, fun _ => rfl, rfl, rfl, rfl⟩

/-! ## Ownership of Backends across the interleaving -/

theorem count_workersOwned_set (be : Backend) (l : List Worker) (w : Nat)
    (k0 k : Worker) (h : l[w]? = some k0) :
    (workersOwned (l.set w k)).count be + k0.owned.count be =
      (workersOwned l).count be + k.owned.count be := by
  induction l generalizing w with
  | nil => simp at h
  | cons x rest ih =>
    cases w with
    | zero =>
      simp only [List.getElem?_cons_zero, Option.some.injEq] at h
      subst h
      simp only [List.set_cons_zero, workersOwned, List.count_append]
      omega
    | succ w =>
      simp only [List.getElem?_cons_succ] at h
      have := ih w h
      simp only [List.set_cons_succ, workersOwned, List.count_append]
      omega

theorem count_eraseIdx (be : Backend) (l : List Backend) (i : Nat) (x : Backend)
    (h : l[i]? = some x) :
    (l.eraseIdx i).count be + [x].count be = l.count be := by
  induction l generalizing i with
  | nil => simp at h
  | cons y rest ih =>
    cases i with
    | zero =>
      simp only [List.getElem?_cons_zero, Option.some.injEq] at h
      subst h
      simp only [List.eraseIdx_cons_zero, List.count_cons, List.count_nil]
      omega
    | succ i =>
      simp only [List.getElem?_cons_succ] at h
      have := ih i h
      simp only [List.eraseIdx_cons_succ, List.count_cons, List.count_nil] at this ⊢
      omega

theorem wellFormed_initState (n : Nat) : (initState n).WellFormed := by
  have h : ∀ m, workersOwned (List.replicate m Worker.atReadRequest) = [] := by
    intro m
    induction m with
    | zero => rfl
    | succ m ih => simp [List.replicate_succ, workersOwned, Worker.owned, ih]
  intro be
  simp [State.tracked, initState, poolInit, h]

theorem tracked_setWorker_count (s : State) (w : Nat) (k0 k : Worker) (be : Backend)
    (hk : s.workers[w]? = some k0) :
    (setWorker s w k).tracked.count be + k0.owned.count be =
      s.tracked.count be + k.owned.count be := by
  have := count_workersOwned_set be s.workers w k0 k hk
  simp only [State.tracked, setWorker, List.count_append]
  omega

/-- A step that only moves a worker, to a program point owning no more than
before, keeps the state well formed. -/
theorem wellFormed_setWorker (s : State) (w : Nat) (k0 k : Worker)
    (hk : s.workers[w]? = some k0) (hinv : s.WellFormed)
    (hle : ∀ be, k.owned.count be ≤ k0.owned.count be) : (setWorker s w k).WellFormed := by
  intro be
  have hi := hinv be
  have hc := tracked_setWorker_count s w k0 k be hk
  have hl := hle be
  have hd : (setWorker s w k).pool.dials = s.pool.dials := rfl
  rw [hd]
  constructor
  · omega
  · intro h
    have := hi.2 h
    omega

theorem handleConnection_wellFormed (s s' : State) (w : Nat) (k : Worker) (a : Action)
    (hk : s.workers[w]? = some k) (hinv : s.WellFormed)
    (hs : handleConnection s w k a = some s') : s'.WellFormed := by
  cases k with
  | atReadRequest =>
    cases a with
    | readRequest r =>
      cases r with
      | none =>
        simp only [handleConnection, Option.some.injEq] at hs
        subst hs
        exact wellFormed_setWorker s w _ _ hk hinv (fun be => by simp [Worker.owned])
      | some req =>
        simp only [handleConnection, Option.some.injEq] at hs
        subst hs
        exact wellFormed_setWorker s w _ _ hk hinv (fun be => by simp [Worker.owned])
    | _ => simp [handleConnection] at hs
  | atGetBackend req =>
    cases a with
    | getBackend dialErr =>
      cases hq : s.pool.backendQueue with
      | nil =>
        cases dialErr with
        | some err =>
          simp only [handleConnection, getBackend, tryRecv, hq, Option.some.injEq] at hs
          subst hs
          intro be
          have hi := hinv be
          have hc := tracked_setWorker_count
            { s with pool := { s.pool with dials := s.pool.dials + 1 } } w _ .returned be hk
          simp only [State.tracked, Worker.owned, List.count_nil, setWorker,
            List.count_append] at hc hi ⊢
          constructor
          · omega
          · intro h
            have := hi.2 (by omega)
            omega
        | none =>
          simp only [handleConnection, getBackend, tryRecv, hq, Option.some.injEq] at hs
          subst hs
          intro be
          have hi := hinv be
          have hc := tracked_setWorker_count
            { s with pool := { s.pool with dials := s.pool.dials + 1 } } w _
            (.atWriteRequest req ⟨s.pool.dials⟩) be hk
          simp only [State.tracked, Worker.owned, List.count_nil, setWorker,
            List.count_append, List.count_cons] at hc hi ⊢
          by_cases hbe : be = ⟨s.pool.dials⟩
          · subst hbe
            have := hi.2 (Nat.le_refl _)
            simp only [beq_self_eq_true, if_true] at hc
            constructor
            · omega
            · intro h
              simp at h
          · have hne : ((⟨s.pool.dials⟩ : Backend) == be) = false := by
              simpa using fun h => hbe h.symm
            simp only [hne] at hc
            constructor
            · simp at hc
              omega
            · intro h
              have := hi.2 (by omega)
              simp at hc
              omega
      | cons b rest =>
        simp only [handleConnection, getBackend, tryRecv, hq, Option.some.injEq] at hs
        subst hs
        intro be
        have hi := hinv be
        have hc := tracked_setWorker_count
          { s with pool := { s.pool with backendQueue := rest } } w _
          (.atWriteRequest req b) be hk
        simp only [State.tracked, Worker.owned, List.count_nil, setWorker,
          List.count_append, List.count_cons, hq] at hc hi ⊢
        constructor
        · omega
        · intro h
          have := hi.2 h
          omega
    | _ => simp [handleConnection] at hs
  | atWriteRequest req b =>
    cases a with
    | writeRequest ok =>
      cases ok with
      | false =>
        simp only [handleConnection, Option.some.injEq] at hs
        subst hs
        exact wellFormed_setWorker s w _ _ hk hinv (fun be => by simp [Worker.owned])
      | true =>
        simp only [handleConnection, Option.some.injEq] at hs
        subst hs
        exact wellFormed_setWorker s w _ _ hk hinv (fun be => by simp [Worker.owned])
    | _ => simp [handleConnection] at hs
  | atRelease req b =>
    cases a with
    | release =>
      simp only [handleConnection, Option.some.injEq] at hs
      subst hs
      intro be
      have hi := hinv be
      have hc := tracked_setWorker_count
        { s with releasing := s.releasing ++ [b] } w _ (.atReadResponse req b) be hk
      simp only [State.tracked, Worker.owned, List.count_nil, setWorker,
        List.count_append, List.count_cons] at hc hi ⊢
      constructor
      · omega
      · intro h
        have := hi.2 h
        omega
    | _ => simp [handleConnection] at hs
  | atReadResponse req b =>
    cases a with
    | readResponse r =>
      cases r with
      | none =>
        simp only [handleConnection, Option.some.injEq] at hs
        subst hs
        exact wellFormed_setWorker s w _ _ hk hinv (fun be => by simp [Worker.owned])
      | some resp =>
        simp only [handleConnection, Option.some.injEq] at hs
        subst hs
        exact wellFormed_setWorker s w _ _ hk hinv (fun be => by simp [Worker.owned])
    | _ => simp [handleConnection] at hs
  | atUpdateStats req b resp =>
    cases a with
    | updateStats =>
      simp only [handleConnection, Option.some.injEq] at hs
      subst hs
      exact wellFormed_setWorker { s with requestBytes := _ } w _ _ hk hinv
        (fun be => by simp [Worker.owned])
    | _ => simp [handleConnection] at hs
  | atWriteResponse req b resp =>
    cases a with
    | writeResponse ok =>
      simp only [handleConnection, Option.some.injEq] at hs
      subst hs
      exact wellFormed_setWorker { s with sent := _ } w _ _ hk hinv
        (fun be => by simp [Worker.owned])
    | _ => simp [handleConnection] at hs
  | returned => simp [handleConnection_returned] at hs

theorem step_wellFormed (s s' : State) (e : Event) (hinv : s.WellFormed)
    (hs : step s e = some s') : s'.WellFormed := by
  cases e with
  | worker w a =>
    simp only [step] at hs
    cases hk : s.workers[w]? with
    | none => simp [hk] at hs
    | some k =>
      simp only [hk] at hs
      exact handleConnection_wellFormed s s' w k a hk hinv hs
  | queueBackend i =>
    simp only [step] at hs
    cases hr : s.releasing[i]? with
    | none => simp [hr] at hs
    | some b =>
      simp only [hr, Option.some.injEq] at hs
      subst hs
      intro be
      have hi := hinv be
      have hc := count_eraseIdx be s.releasing i b hr
      by_cases hroom : s.pool.backendQueue.length < backendQueueCap
      · simp only [State.tracked, queueBackend, trySend_eq_some s.pool b hroom,
          List.count_append] at hi ⊢
        constructor
        · omega
        · intro h
          have := hi.2 h
          omega
      · simp only [State.tracked, queueBackend,
          trySend_eq_none s.pool b (Nat.not_lt.mp hroom), List.count_append] at hi ⊢
        rw [List.count_cons]
        simp only [List.count_cons, List.count_nil] at hc
        constructor
        · omega
        · intro h
          have := hi.2 h
          omega

/-- Every state of a run from the initial state is well formed. -/
theorem run_wellFormed (evs : List Event) (s s' : State) (hinv : s.WellFormed)
    (h : run s evs = some s') : s'.WellFormed := by
  induction evs generalizing s with
  | nil =>
    simp only [run, Option.some.injEq] at h
    subst h
    exact hinv
  | cons e rest ih =>
    simp only [run] at h
    cases hs : step s e with
    | none => simp [hs] at h
    | some t =>
      simp only [hs] at h
      exact ih t (step_wellFormed s t e hinv hs) h

/-- In a well-formed state, so in every state of a run of the program, a
Backend whose `queueBackend` goroutine has not finished is neither in the pool
nor closed. -/
theorem releasing_not_pooled_nor_closed (s : State) (hinv : s.WellFormed) (i : Nat)
    (be : Backend) (h : s.releasing[i]? = some be) :
    be ∉ s.pool.backendQueue ∧ be ∉ s.pool.closed := by
  have hmem : be ∈ s.releasing := List.getElem?_mem h
  have hpos : 0 < s.releasing.count be := List.count_pos_iff.mpr hmem
  have hi := (hinv be).1
  simp only [State.tracked, List.count_append] at hi
  constructor
  · intro hm
    have : 0 < s.pool.backendQueue.count be := List.count_pos_iff.mpr hm
    omega
  · intro hm
    have : 0 < s.pool.closed.count be := List.count_pos_iff.mpr hm
    omega

/-- A step of a worker leaves the pool alone or changes it by `getBackend`. -/
theorem handleConnection_pool (s s' : State) (w : Nat) (k : Worker) (a : Action)
    (hs : handleConnection s w k a = some s') :
    s'.pool = s.pool ∨ ∃ d, s'.pool = (getBackend d s.pool []).2 := by
  cases k with
  | atReadRequest =>
    cases a with
    | readRequest r =>
      cases r <;>
        (simp only [handleConnection, Option.some.injEq] at hs; subst hs; exact Or.inl rfl)
    | _ => simp [handleConnection] at hs
  | atGetBackend req =>
    cases a with
    | getBackend dialErr =>
      right
      refine ⟨dialErr, ?_⟩
      simp only [handleConnection] at hs
      cases hg : getBackend dialErr s.pool [] with
      | mk r p =>
        obtain ⟨b, e⟩ := r
        rw [hg] at hs
        cases e with
        | some err =>
          cases b <;> (simp only [Option.some.injEq] at hs; subst hs; rfl)
        | none =>
          cases b with
          | none => simp at hs
          | some be =>
            simp only [Option.some.injEq] at hs
            subst hs
            rfl
    | _ => simp [handleConnection] at hs
  | atWriteRequest req b =>
    cases a with
    | writeRequest ok =>
      cases ok <;>
        (simp only [handleConnection, Option.some.injEq] at hs; subst hs; exact Or.inl rfl)
    | _ => simp [handleConnection] at hs
  | atRelease req b =>
    cases a with
    | release =>
      simp only [handleConnection, Option.some.injEq] at hs
      subst hs
      exact Or.inl rfl
    | _ => simp [handleConnection] at hs
  | atReadResponse req b =>
    cases a with
    | readResponse r =>
      cases r <;>
        (simp only [handleConnection, Option.some.injEq] at hs; subst hs; exact Or.inl rfl)
    | _ => simp [handleConnection] at hs
  | atUpdateStats req b resp =>
    cases a with
    | updateStats =>
      simp only [handleConnection, Option.some.injEq] at hs
      subst hs
      exact Or.inl rfl
    | _ => simp [handleConnection] at hs
  | atWriteResponse req b resp =>
    cases a with
    | writeResponse ok =>
      simp only [handleConnection, Option.some.injEq] at hs
      subst hs
      exact Or.inl rfl
    | _ => simp [handleConnection] at hs
  | returned => simp [handleConnection_returned] at hs

/-- The pool of the program only passes through states reachable by calls of
`getBackend` and `queueBackend`. -/
theorem step_reachable (s s' : State) (e : Event) (hr : Reachable s.pool)
    (hs : step s e = some s') : Reachable s'.pool := by
  cases e with
  | worker w a =>
    simp only [step] at hs
    cases hk : s.workers[w]? with
    | none => simp [hk] at hs
    | some k =>
      simp only [hk] at hs
      rcases handleConnection_pool s s' w k a hs with h | ⟨d, h⟩
      · rw [h]
        exact hr
      · rw [h]
        exact Reachable.get d s.pool [] hr (by simp)
  | queueBackend i =>
    simp only [step] at hs
    cases hq : s.releasing[i]? with
    | none => simp [hq] at hs
    | some b =>
      simp only [hq, Option.some.injEq] at hs
      subst hs
      exact Reachable.queue b s.pool [] hr (by simp)

theorem run_reachable (evs : List Event) (s s' : State) (hr : Reachable s.pool)
    (h : run s evs = some s') : Reachable s'.pool := by
  induction evs generalizing s with
  | nil =>
    simp only [run, Option.some.injEq] at h
    subst h
    exact hr
  | cons e rest ih =>
    simp only [run] at h
    cases hs : step s e with
    | none => simp [hs] at h
    | some t =>
      simp only [hs] at h
      exact ih t (step_reachable s t e hr hs) h

end Notsoproxy
